import Mathlib

/-!
Verification of the z-score mean-reversion backtest in `src/project.py`.

The program consists of a signal engine (rolling mean / rolling sample
standard deviation / z-score, computed in `ZScoreMeanReversion.init` via
pandas `rolling(lookback).mean()` and `rolling(lookback).std()`), and a
position state machine (`ZScoreMeanReversion.next`), evaluated once per
time step over a price series.

Embedding notes:
* Prices and thresholds are embedded as rationals `ℚ`.
* A float value of the z-score series is embedded as `FVal`: pandas
  produces NaN at indices where a rolling statistic is undefined
  (fewer than `lookback` observations, or sample std with a single
  observation), `0/0` NaN or `±∞` on division by a zero std, and an
  ordinary finite quotient otherwise.  The finite quotient
  `(close − mean) / std` with `std = √var` is irrational in general, so
  the constructor `FVal.val num var` records the exact pair: it denotes
  the real number `num / Real.sqrt var` (all produced values have
  `var > 0`).  The IEEE comparisons with a rational threshold `c` used by
  `next` are decided exactly on this representation by `FVal.fle` /
  `FVal.fge` (NaN compares false; comparing `num / √var ≤ c` is rewritten
  sign-by-sign into polynomial comparisons over `ℚ`).
* `pandas.rolling(L)` uses `min_periods = L`, so a statistic is defined
  exactly when the trailing window holds `L` observations; `.std()` uses
  `ddof = 1` (sample standard deviation), which is additionally undefined
  (NaN) when `L < 2`.  We track the rolling *variance* (`rollingVar`);
  the std of the source is its square root, and `std = 0 ↔ var = 0`,
  `std defined ↔ var defined`, which is all the state machine observes.
* `backtesting.py` calls `next` once per bar in ascending order;
  `self.position.is_long` / `is_short` / `close()` / `buy()` / `sell()`
  are embedded as the three-valued position state `Pos` with transitions
  applied at the step that emits them.
-/

namespace ZScoreMR

/-- Position state: `self.position` of backtesting.py is flat, long or short. -/
inductive Pos
  | flat
  | long
  | short
  deriving DecidableEq, Repr

/-- The at most one order emitted by one `next` step:
`self.position.close()`, `self.buy()`, `self.sell()`, or nothing. -/
inductive Action
  | close
  | openLong
  | openShort
  | hold
  deriving DecidableEq, Repr

/-- `self.position.is_long` -/
def Pos.is_long : Pos → Bool
  | .long => true
  | _ => false

/-- `self.position.is_short` -/
def Pos.is_short : Pos → Bool
  | .short => true
  | _ => false

/-- A value of the float z-score series.  `val num var` denotes the real
number `num / Real.sqrt var` (the program computes
`(close − mean) / std` with `std = √var`); `nan` is IEEE NaN, `posinf` /
`neginf` are `±∞` (from dividing a nonzero numerator by a zero std). -/
inductive FVal
  | nan
  | posinf
  | neginf
  | val (num : ℚ) (var : ℚ)
  deriving DecidableEq, Repr

/-- IEEE comparison `z ≤ c` for a rational threshold `c`.  NaN compares
false.  For a finite `num / √var` (with `var ≥ 0`), the comparison
`num ≤ c·√var` is decided by sign analysis and squaring. -/
def FVal.fle : FVal → ℚ → Bool
  | .nan, _ => false
  | .posinf, _ => false
  | .neginf, _ => true
  | .val n v, c =>
      if 0 ≤ c then decide (n ≤ 0) || decide (n ^ 2 ≤ c ^ 2 * v)
      else decide (n ≤ 0) && decide (c ^ 2 * v ≤ n ^ 2)

/-- IEEE comparison `z ≥ c` for a rational threshold `c`.  NaN compares
false.  For a finite `num / √var` (with `var ≥ 0`), the comparison
`num ≥ c·√var` is decided by sign analysis and squaring. -/
def FVal.fge : FVal → ℚ → Bool
  | .nan, _ => false
  | .posinf, _ => true
  | .neginf, _ => false
  | .val n v, c =>
      if c ≤ 0 then decide (0 ≤ n) || decide (n ^ 2 ≤ c ^ 2 * v)
      else decide (0 ≤ n) && decide (c ^ 2 * v ≤ n ^ 2)

/-- Strategy parameters (class attributes of `ZScoreMeanReversion`). -/
structure Params where
  lookback : ℕ
  entry_z : ℚ
  exit_z : ℚ
  deriving DecidableEq, Repr

/-- The values hard-coded in the source: `lookback = 20`, `entry_z = 2.0`,
`exit_z = 0.5`. -/
def defaultParams : Params :=
  { lookback := 20, entry_z := 2, exit_z := 1 / 2 }

/-- `ZScoreMeanReversion.next`: the if/elif chain of the source, returning
the position after the step and the order emitted.  `buy()` when flat
opens a long; when short (reachable only for non-positive thresholds) the
broker of backtesting.py closes the short and opens the long, so the
resulting position is long; symmetrically for `sell()`. -/
def next (p : Params) (s : Pos) (z : FVal) : Pos × Action :=
  if s.is_long && z.fge (-p.exit_z) then (.flat, .close)
  else if s.is_short && z.fle p.exit_z then (.flat, .close)
  else if z.fle (-p.entry_z) && !s.is_long then (.long, .openLong)
  else if z.fge p.entry_z && !s.is_short then (.short, .openShort)
  else (s, .hold)

/-- The five prioritized transition rules of the specification, written
from the spec text: exit checks precede entry checks, a comparison
against an undefined z never evaluates true, and rule 5 is an explicit
hold. -/
def specStep (p : Params) (s : Pos) (z : FVal) : Pos × Action :=
  if s = .long ∧ z.fge (-p.exit_z) then (.flat, .close)
  else if s = .short ∧ z.fle p.exit_z then (.flat, .close)
  else if z.fle (-p.entry_z) ∧ s ≠ .long then (.long, .openLong)
  else if z.fge p.entry_z ∧ s ≠ .short then (.short, .openShort)
  else (s, .hold)

/-- The simulation loop: `next` is called once per bar with the z value of
that bar, threading the position state; the trace records the position
after each step together with the order emitted at that step. -/
def runFrom (p : Params) (s : Pos) : List FVal → List (Pos × Action)
  | [] => []
  | z :: zs =>
      let r := next p s z
      r :: runFrom p r.1 zs

/-- The trailing window of (at most) `L` closes ending at index `t`. -/
def windowAt (prices : List ℚ) (L t : ℕ) : List ℚ :=
  (prices.take (t + 1)).drop (t + 1 - L)

/-- `rolling(lookback).mean()` at index `t`: defined exactly when the
window holds `L ≥ 1` observations (pandas uses `min_periods = L`, and
rejects a zero window). -/
def rollingMean (prices : List ℚ) (L t : ℕ) : Option ℚ :=
  if 1 ≤ L ∧ L ≤ t + 1 ∧ t < prices.length then
    some ((windowAt prices L t).sum / (L : ℚ))
  else none

/-- The square of `rolling(lookback).std()` at index `t`: the sample
variance (divisor `L − 1`) of the window, defined exactly when the window
holds `L` observations and `L ≥ 2` (pandas `.std()` uses `ddof = 1`, so a
window of fewer than two observations yields NaN). -/
def rollingVar (prices : List ℚ) (L t : ℕ) : Option ℚ :=
  if 2 ≤ L ∧ L ≤ t + 1 ∧ t < prices.length then
    some (((windowAt prices L t).map
      (fun x => (x - (windowAt prices L t).sum / (L : ℚ)) ^ 2)).sum / ((L : ℚ) - 1))
  else none

/-- `self.z_scores = (close - rolling_mean) / rolling_std` at index `t`,
as the float value pandas produces: NaN when mean or std is undefined;
on a zero std, NaN for a zero numerator (`0/0`) and `±∞` otherwise;
else the finite quotient `num / √var`. -/
def zscoreAt (prices : List ℚ) (L t : ℕ) : FVal :=
  match rollingMean prices L t, rollingVar prices L t with
  | some m, some v =>
      if v = 0 then
        if prices.getD t 0 - m = 0 then .nan
        else if 0 < prices.getD t 0 - m then .posinf
        else .neginf
      else .val (prices.getD t 0 - m) v
  | _, _ => .nan

/-- The whole z-score series of a price series. -/
def zSeries (p : Params) (prices : List ℚ) : List FVal :=
  (List.range prices.length).map (zscoreAt prices p.lookback)

/-- The whole simulation of the program on a price series: precompute the
z-score series (`init`), then run `next` over it from a flat position. -/
def backtestTrace (p : Params) (prices : List ℚ) : List (Pos × Action) :=
  runFrom p .flat (zSeries p prices)

/-- The sequence of position states visited by a run started at `s`:
`s` followed by the position after each step. -/
def posSeqFrom (p : Params) (s : Pos) (zs : List FVal) : List Pos :=
  s :: (runFrom p s zs).map Prod.fst

/-- The sequence of position states of the whole simulation. -/
def posSeq (p : Params) (prices : List ℚ) : List Pos :=
  posSeqFrom p .flat (zSeries p prices)

/-- No direct reversal between two consecutive position states: a step
never goes from long to short, or from short to long, without an
intervening flat. -/
def noReversal (a b : Pos) : Prop :=
  ¬(a = .long ∧ b = .short) ∧ ¬(a = .short ∧ b = .long)

section Lemmas

/-- An IEEE `≥` against a non-positive threshold that fails forces a
negative numerator. -/
lemma fge_val_nonpos_false {n v c : ℚ} (hc : c ≤ 0)
    (h : FVal.fge (.val n v) c = false) : ¬(0 ≤ n) := by
  simp only [FVal.fge, if_pos hc] at h
  simp only [Bool.or_eq_false_iff, decide_eq_false_iff_not] at h
  exact h.1

/-- An IEEE `≥` against a positive threshold that holds forces a
non-negative numerator. -/
lemma fge_val_pos_true {n v c : ℚ} (hc : 0 < c)
    (h : FVal.fge (.val n v) c = true) : 0 ≤ n := by
  simp only [FVal.fge, if_neg (not_le.mpr hc)] at h
  simp only [Bool.and_eq_true, decide_eq_true_eq] at h
  exact h.1

/-- An IEEE `≤` against a non-negative threshold that fails forces a
positive numerator. -/
lemma fle_val_nonneg_false {n v c : ℚ} (hc : 0 ≤ c)
    (h : FVal.fle (.val n v) c = false) : ¬(n ≤ 0) := by
  simp only [FVal.fle, if_pos hc] at h
  simp only [Bool.or_eq_false_iff, decide_eq_false_iff_not] at h
  exact h.1

/-- An IEEE `≤` against a negative threshold that holds forces a
non-positive numerator. -/
lemma fle_val_neg_true {n v c : ℚ} (hc : c < 0)
    (h : FVal.fle (.val n v) c = true) : n ≤ 0 := by
  simp only [FVal.fle, if_neg (not_le.mpr hc)] at h
  simp only [Bool.and_eq_true, decide_eq_true_eq] at h
  exact h.1

/-- NaN holds: every comparison against NaN is false, so `next` falls
through every branch and changes nothing. -/
lemma next_nan (p : Params) (s : Pos) : next p s .nan = (s, .hold) := by
  cases s <;> rfl

/-- A run over an all-NaN z series holds at every step and never leaves
the starting position. -/
lemma runFrom_nan (p : Params) (s : Pos) (zs : List FVal)
    (h : ∀ z ∈ zs, z = .nan) :
    runFrom p s zs = zs.map (fun _ => (s, .hold)) := by
  induction zs with
  | nil => rfl
  | cons z zs ih =>
      have hz : z = .nan := h z (List.mem_cons_self z zs)
      subst hz
      simp only [runFrom, next_nan, List.map_cons]
      exact congrArg _ (ih fun w hw => h w (List.mem_cons_of_mem _ hw))

/-- With positive thresholds, a step from long never lands on short. -/
lemma next_long_ne_short (p : Params) (he : 0 < p.entry_z)
    (hx : 0 < p.exit_z) (z : FVal) : (next p .long z).1 ≠ .short := by
  cases z with
  | nan => simp [next_nan]
  | posinf => simp [next, Pos.is_long, Pos.is_short, FVal.fge, FVal.fle]
  | neginf => simp [next, Pos.is_long, Pos.is_short, FVal.fge, FVal.fle]
  | val n v =>
      simp only [next, Pos.is_long, Pos.is_short, Bool.true_and,
        Bool.false_and, Bool.and_false, Bool.and_true, Bool.not_true,
        Bool.not_false, if_false]
      cases h1 : FVal.fge (.val n v) (-p.exit_z) with
      | true => simp
      | false =>
          cases h4 : FVal.fge (.val n v) p.entry_z with
          | true =>
              exact absurd (fge_val_pos_true he h4)
                (fge_val_nonpos_false (by linarith) h1)
          | false => simp

/-- With positive thresholds, a step from short never lands on long. -/
lemma next_short_ne_long (p : Params) (he : 0 < p.entry_z)
    (hx : 0 < p.exit_z) (z : FVal) : (next p .short z).1 ≠ .long := by
  cases z with
  | nan => simp [next_nan]
  | posinf => simp [next, Pos.is_long, Pos.is_short, FVal.fge, FVal.fle]
  | neginf => simp [next, Pos.is_long, Pos.is_short, FVal.fge, FVal.fle]
  | val n v =>
      simp only [next, Pos.is_long, Pos.is_short, Bool.true_and,
        Bool.false_and, Bool.and_false, Bool.and_true, Bool.not_true,
        Bool.not_false, if_false]
      cases h2 : FVal.fle (.val n v) p.exit_z with
      | true => simp
      | false =>
          cases h3 : FVal.fle (.val n v) (-p.entry_z) with
          | true =>
              exact absurd (fle_val_neg_true (by linarith) h3)
                (fle_val_nonneg_false (le_of_lt hx) h2)
          | false => simp

/-- With positive thresholds, no single step reverses a position
directly. -/
lemma next_noReversal (p : Params) (he : 0 < p.entry_z)
    (hx : 0 < p.exit_z) (s : Pos) (z : FVal) :
    noReversal s (next p s z).1 := by
  constructor
  · rintro ⟨rfl, h⟩
    exact next_long_ne_short p he hx z h
  · rintro ⟨rfl, h⟩
    exact next_short_ne_long p he hx z h

/-- Every run's position sequence satisfies any relation that every
single step satisfies. -/
lemma posSeqFrom_chain (p : Params) (R : Pos → Pos → Prop)
    (hR : ∀ s z, R s (next p s z).1) :
    ∀ (zs : List FVal) (s : Pos), List.Chain' R (posSeqFrom p s zs) := by
  intro zs
  induction zs with
  | nil => intro s; simp [posSeqFrom, runFrom]
  | cons z zs ih =>
      intro s
      have htail := ih (next p s z).1
      simp only [posSeqFrom, runFrom, List.map_cons] at htail ⊢
      exact List.Chain'.cons (hR s z) htail

/-- A list of non-negative rationals with zero sum is all zeros. -/
lemma all_zero_of_sum_eq_zero (l : List ℚ) (h0 : ∀ x ∈ l, 0 ≤ x)
    (h : l.sum = 0) : ∀ x ∈ l, x = 0 := by
  induction l with
  | nil => simp
  | cons a l ih =>
      have ha : 0 ≤ a := h0 a (List.mem_cons_self a l)
      have hl : 0 ≤ l.sum :=
        List.sum_nonneg fun x hx => h0 x (List.mem_cons_of_mem _ hx)
      simp only [List.sum_cons] at h
      intro x hx
      rcases List.mem_cons.mp hx with rfl | hx
      · linarith
      · have hs0 : l.sum = 0 := by linarith
        exact ih (fun y hy => h0 y (List.mem_cons_of_mem _ hy)) hs0 x hx

/-- A full trailing window holds exactly `L` observations. -/
lemma windowAt_length (prices : List ℚ) (L t : ℕ) (h1 : L ≤ t + 1)
    (h2 : t < prices.length) : (windowAt prices L t).length = L := by
  simp only [windowAt, List.length_drop, List.length_take]
  omega

/-- The close at index `t` belongs to its own trailing window. -/
lemma getD_mem_windowAt (prices : List ℚ) (L t : ℕ) (h0 : 1 ≤ L)
    (h1 : L ≤ t + 1) (h2 : t < prices.length) :
    prices.getD t 0 ∈ windowAt prices L t := by
  have hlen : (windowAt prices L t).length = L :=
    windowAt_length prices L t h1 h2
  have hidx : L - 1 < (windowAt prices L t).length := by omega
  have h5 : t + 1 - L + (L - 1) < prices.length := by omega
  have h6 : t + 1 - L + (L - 1) < (prices.take (t + 1)).length := by
    simp only [List.length_take]
    omega
  have hidx2 : L - 1 < ((prices.take (t + 1)).drop (t + 1 - L)).length := by
    simp only [List.length_drop, List.length_take]
    omega
  have hw : (windowAt prices L t)[L - 1] = prices.getD t 0 := by
    have ht : t + 1 - L + (L - 1) = t := by omega
    calc (windowAt prices L t)[L - 1]
        = (prices.take (t + 1))[t + 1 - L + (L - 1)] := List.getElem_drop _
      _ = prices[t + 1 - L + (L - 1)] := List.getElem_take _
      _ = prices.getD (t + 1 - L + (L - 1)) 0 :=
          (List.getD_eq_getElem prices 0 h5).symm
      _ = prices.getD t 0 := by rw [ht]
  rw [← hw]
  exact List.getElem_mem hidx

/-- Inversion of a defined rolling variance. -/
lemma rollingVar_some_conditions {prices : List ℚ} {L t : ℕ} {v : ℚ}
    (h : rollingVar prices L t = some v) :
    2 ≤ L ∧ L ≤ t + 1 ∧ t < prices.length ∧
      ((windowAt prices L t).map
        (fun x => (x - (windowAt prices L t).sum / (L : ℚ)) ^ 2)).sum /
          ((L : ℚ) - 1) = v := by
  unfold rollingVar at h
  split_ifs at h with hc
  exact ⟨hc.1, hc.2.1, hc.2.2, Option.some.inj h⟩

/-- A zero rolling variance forces every observation of the window to
equal the window mean. -/
lemma window_const_of_var_zero {prices : List ℚ} {L t : ℕ}
    (h : rollingVar prices L t = some 0) :
    ∀ x ∈ windowAt prices L t, x = (windowAt prices L t).sum / (L : ℚ) := by
  obtain ⟨hL, h1, h2, hv⟩ := rollingVar_some_conditions h
  have hL1 : ((L : ℚ) - 1) ≠ 0 := by
    have h2L : (2 : ℚ) ≤ (L : ℚ) := by exact_mod_cast hL
    linarith
  have hsum : ((windowAt prices L t).map
      (fun x => (x - (windowAt prices L t).sum / (L : ℚ)) ^ 2)).sum = 0 := by
    rcases div_eq_zero_iff.mp hv with hz | hz
    · exact hz
    · exact absurd hz hL1
  intro x hx
  have hx2 : (x - (windowAt prices L t).sum / (L : ℚ)) ^ 2 = 0 := by
    refine all_zero_of_sum_eq_zero _ ?_ hsum _ ?_
    · intro y hy
      rcases List.mem_map.mp hy with ⟨a, _, rfl⟩
      exact sq_nonneg _
    · exact List.mem_map.mpr ⟨x, hx, rfl⟩
  have hx0 := (pow_eq_zero_iff (two_ne_zero)).mp hx2
  linarith

/-- A zero rolling variance forces a zero z-score numerator: the close at
`t` equals the rolling mean. -/
lemma close_eq_mean_of_var_zero {prices : List ℚ} {L t : ℕ}
    (h : rollingVar prices L t = some 0) :
    prices.getD t 0 = (windowAt prices L t).sum / (L : ℚ) := by
  obtain ⟨hL, h1, h2, _⟩ := rollingVar_some_conditions h
  exact window_const_of_var_zero h _
    (getD_mem_windowAt prices L t (by omega) h1 h2)

/-- The rolling mean over a full window. -/
lemma rollingMean_eq_of_valid {prices : List ℚ} {L t : ℕ} (h0 : 1 ≤ L)
    (h1 : L ≤ t + 1) (h2 : t < prices.length) :
    rollingMean prices L t = some ((windowAt prices L t).sum / (L : ℚ)) := by
  unfold rollingMean
  rw [if_pos ⟨h0, h1, h2⟩]

/-- An undefined rolling mean makes the z-score NaN. -/
lemma zscoreAt_nan_of_mean_none {prices : List ℚ} {L t : ℕ}
    (h : rollingMean prices L t = none) : zscoreAt prices L t = .nan := by
  unfold zscoreAt
  rw [h]

/-- An undefined rolling variance makes the z-score NaN. -/
lemma zscoreAt_nan_of_var_none {prices : List ℚ} {L t : ℕ}
    (h : rollingVar prices L t = none) : zscoreAt prices L t = .nan := by
  unfold zscoreAt
  rw [h]
  rcases rollingMean prices L t with _ | m
  · rfl
  · rfl

/-- Outside a full window the z-score is NaN. -/
lemma zscoreAt_nan_of_invalid {prices : List ℚ} {L t : ℕ}
    (h : ¬(1 ≤ L ∧ L ≤ t + 1 ∧ t < prices.length)) :
    zscoreAt prices L t = .nan := by
  refine zscoreAt_nan_of_mean_none ?_
  unfold rollingMean
  rw [if_neg h]

/-- A zero rolling variance makes the z-score NaN (the `0/0` case): the
numerator is also zero. -/
lemma zscoreAt_nan_of_var_zero {prices : List ℚ} {L t : ℕ}
    (h : rollingVar prices L t = some 0) : zscoreAt prices L t = .nan := by
  obtain ⟨hL, h1, h2, _⟩ := rollingVar_some_conditions h
  have hm : rollingMean prices L t =
      some ((windowAt prices L t).sum / (L : ℚ)) :=
    rollingMean_eq_of_valid (by omega) h1 h2
  have hnum : prices.getD t 0 - (windowAt prices L t).sum / (L : ℚ) = 0 :=
    sub_eq_zero.mpr (close_eq_mean_of_var_zero h)
  unfold zscoreAt
  rw [hm, h]
  show (if (0 : ℚ) = 0 then
      if prices.getD t 0 - (windowAt prices L t).sum / (L : ℚ) = 0 then FVal.nan
      else if 0 < prices.getD t 0 - (windowAt prices L t).sum / (L : ℚ) then
        FVal.posinf
      else FVal.neginf
    else FVal.val (prices.getD t 0 - (windowAt prices L t).sum / (L : ℚ)) 0) =
      FVal.nan
  rw [if_pos rfl, if_pos hnum]

/-- The trailing window of a constant series is constant. -/
lemma windowAt_replicate {c : ℚ} {n L t : ℕ} (h1 : L ≤ t + 1) (h2 : t < n) :
    windowAt (List.replicate n c) L t = List.replicate L c := by
  unfold windowAt
  rw [List.take_replicate, List.drop_replicate]
  congr 1
  omega

/-- The rolling variance of a constant series is zero wherever it is
defined. -/
lemma rollingVar_replicate_zero {c : ℚ} {n L t : ℕ} (hL : 2 ≤ L)
    (h1 : L ≤ t + 1) (h2 : t < n) :
    rollingVar (List.replicate n c) L t = some 0 := by
  have hlen : t < (List.replicate n c).length := by
    simp [List.length_replicate, h2]
  have hLQ : (L : ℚ) ≠ 0 := Nat.cast_ne_zero.mpr (by omega)
  unfold rollingVar
  rw [if_pos ⟨hL, h1, hlen⟩, windowAt_replicate h1 h2]
  simp only [List.sum_replicate, nsmul_eq_mul, List.map_replicate]
  rw [mul_div_cancel_left₀ c hLQ]
  simp

end Lemmas

section Claims

/-- C1: for every price series and every step of the simulation, at most
one position is open — the position state is always exactly one of flat,
long or short, and the machine never moves from long to short or from
short to long without an intervening flat (for positive thresholds, as
the hard-coded `entry_z = 2.0`, `exit_z = 0.5` are). -/
theorem at_most_one_position (p : Params) (he : 0 < p.entry_z)
    (hx : 0 < p.exit_z) (prices : List ℚ) :
    (∀ s ∈ posSeq p prices, s = .flat ∨ s = .long ∨ s = .short) ∧
    List.Chain' noReversal (posSeq p prices) := by
  constructor
  · intro s _
    cases s <;> simp
  · exact posSeqFrom_chain p noReversal (next_noReversal p he hx) _ _

theorem at_most_one_position_witness :
    0 < defaultParams.entry_z ∧ 0 < defaultParams.exit_z ∧
    ((∀ s ∈ posSeq defaultParams [1, 2, 3],
        s = .flat ∨ s = .long ∨ s = .short) ∧
      List.Chain' noReversal (posSeq defaultParams [1, 2, 3])) :=
  ⟨by norm_num [defaultParams], by norm_num [defaultParams],
    at_most_one_position defaultParams (by norm_num [defaultParams])
      (by norm_num [defaultParams]) [1, 2, 3]⟩

/-- C2: at every step, `next` evaluates exactly the five prioritized
rules of spec §4.2, exit checks before entry checks, at most one rule
firing: the source's if/elif chain coincides with the spec's ranked rule
list for every state and every z value. -/
theorem next_eq_specStep (p : Params) (s : Pos) (z : FVal) :
    next p s z = specStep p s z := by
  cases s <;> simp [next, specStep, Pos.is_long, Pos.is_short]

/-- C7: replaying the exact same price series with the same parameters
yields the identical trace of transitions — the simulation is a pure
function of (parameters, prices) with no other dependence. -/
theorem replay_deterministic (p q : Params) (prices1 prices2 : List ℚ)
    (hpq : p = q) (hpr : prices1 = prices2) :
    backtestTrace p prices1 = backtestTrace q prices2 := by
  subst hpq
  subst hpr
  rfl

theorem replay_deterministic_witness :
    defaultParams = defaultParams ∧ [(1 : ℚ), 2, 3] = [(1 : ℚ), 2, 3] ∧
    backtestTrace defaultParams [1, 2, 3] =
      backtestTrace defaultParams [1, 2, 3] :=
  ⟨rfl, rfl,
    replay_deterministic defaultParams defaultParams [1, 2, 3] [1, 2, 3]
      rfl rfl⟩

/-- C8: a step on which a close fires performs no entry for the
remainder of that step — whenever `next` emits a close order, the
position after the step is flat, never a freshly opened long or short. -/
theorem close_never_opens (p : Params) (s : Pos) (z : FVal)
    (h : (next p s z).2 = .close) : (next p s z).1 = .flat := by
  unfold next at h ⊢
  split_ifs at h ⊢ <;> simp_all

theorem close_never_opens_witness :
    (next defaultParams .long .posinf).2 = .close ∧
    (next defaultParams .long .posinf).1 = .flat :=
  ⟨by decide, close_never_opens defaultParams .long .posinf (by decide)⟩

/-- C9: the per-step transition of `next` is total and exclusive — for
every state and every z value (finite, infinite or NaN) it produces
exactly one of the outcomes close / open long / open short / hold,
never zero and never two. -/
theorem step_total_exclusive (p : Params) (s : Pos) (z : FVal) :
    ∃! a : Action, (next p s z).2 = a ∧
      (a = .close ∨ a = .openLong ∨ a = .openShort ∨ a = .hold) := by
  refine ⟨(next p s z).2, ⟨rfl, ?_⟩, fun b hb => hb.1.symm⟩
  cases hA : (next p s z).2 <;> simp

/-- C3: whenever the z value at step `t` is undefined — because the
window is short (`t < lookback − 1`) or the rolling std is zero — the
state machine performs no transition at step `t`: the z value is NaN,
the position is unchanged and the step emits a hold, from every state. -/
theorem undefined_z_holds (p : Params) (prices : List ℚ) (t : ℕ) (s : Pos)
    (h : t + 1 < p.lookback ∨ rollingVar prices p.lookback t = some 0) :
    zscoreAt prices p.lookback t = .nan ∧
    next p s (zscoreAt prices p.lookback t) = (s, .hold) := by
  have hz : zscoreAt prices p.lookback t = .nan := by
    rcases h with h | h
    · exact zscoreAt_nan_of_invalid (by omega)
    · exact zscoreAt_nan_of_var_zero h
  rw [hz]
  exact ⟨rfl, next_nan p s⟩

theorem undefined_z_holds_witness :
    (0 + 1 < defaultParams.lookback ∨
      rollingVar [(1 : ℚ), 2, 3] defaultParams.lookback 0 = some 0) ∧
    (zscoreAt [(1 : ℚ), 2, 3] defaultParams.lookback 0 = .nan ∧
      next defaultParams .flat
          (zscoreAt [(1 : ℚ), 2, 3] defaultParams.lookback 0) =
        (.flat, .hold)) :=
  ⟨Or.inl (by decide),
    undefined_z_holds defaultParams [(1 : ℚ), 2, 3] 0 .flat
      (Or.inl (by decide))⟩

/-- C4 counterexample: the source contains no parameter validation at
all.  With `lookback = 1` (violating `lookback ≥ 2`) no configuration
error is reported to the caller: construction succeeds and the whole
simulation runs, producing a full (hold-only) trace, refuting the
claimed report-before-computation behaviour. -/
theorem no_config_error_counterexample :
    backtestTrace (Params.mk 1 2 (1 / 2)) [1, 2, 3] =
      [(.flat, .hold), (.flat, .hold), (.flat, .hold)] := by decide

/-- C4 (amended): the program performs no parameter validation and never
clamps: an invalid `lookback < 2` is accepted silently, signal
computation proceeds, every z value is NaN (pandas sample std of a
window shorter than two observations), and the simulation runs to
completion holding flat at every step. -/
theorem no_parameter_validation (p : Params) (prices : List ℚ)
    (h : p.lookback < 2) :
    (∀ t, zscoreAt prices p.lookback t = .nan) ∧
    backtestTrace p prices =
      (zSeries p prices).map (fun _ => (Pos.flat, Action.hold)) := by
  have hz : ∀ t, zscoreAt prices p.lookback t = .nan := by
    intro t
    have hc : ¬(2 ≤ p.lookback ∧ p.lookback ≤ t + 1 ∧ t < prices.length) := by
      intro hc
      omega
    refine zscoreAt_nan_of_var_none ?_
    unfold rollingVar
    rw [if_neg hc]
  refine ⟨hz, ?_⟩
  unfold backtestTrace
  refine runFrom_nan p .flat _ ?_
  intro z hzz
  rcases List.mem_map.mp hzz with ⟨t, _, rfl⟩
  exact hz t

theorem no_parameter_validation_witness :
    (Params.mk 1 2 (1 / 2)).lookback < 2 ∧
    ((∀ t, zscoreAt [(1 : ℚ), 2, 3] (Params.mk 1 2 (1 / 2)).lookback t =
        .nan) ∧
      backtestTrace (Params.mk 1 2 (1 / 2)) [(1 : ℚ), 2, 3] =
        (zSeries (Params.mk 1 2 (1 / 2)) [(1 : ℚ), 2, 3]).map
          (fun _ => (Pos.flat, Action.hold))) :=
  ⟨by decide,
    no_parameter_validation (Params.mk 1 2 (1 / 2)) [(1 : ℚ), 2, 3]
      (by decide)⟩

/-- C6: on a constant-price series of length at least `lookback` (with
`lookback ≥ 2`, as the hard-coded 20 is), the rolling std is defined and
zero at every index from `lookback − 1` on, the z value is NaN at every
index, and no trade is ever opened: the whole trace holds flat. -/
theorem constant_series_no_trade (p : Params) (c : ℚ) (n : ℕ)
    (hL : 2 ≤ p.lookback) (_hn : p.lookback ≤ n) :
    (∀ t, p.lookback - 1 ≤ t → t < n →
        rollingVar (List.replicate n c) p.lookback t = some 0) ∧
    (∀ t, zscoreAt (List.replicate n c) p.lookback t = .nan) ∧
    ∀ pa ∈ backtestTrace p (List.replicate n c), pa = (.flat, .hold) := by
  have hvar : ∀ t, p.lookback - 1 ≤ t → t < n →
      rollingVar (List.replicate n c) p.lookback t = some 0 := by
    intro t h1 h2
    exact rollingVar_replicate_zero hL (by omega) h2
  have hz : ∀ t, zscoreAt (List.replicate n c) p.lookback t = .nan := by
    intro t
    by_cases hvalid : 1 ≤ p.lookback ∧ p.lookback ≤ t + 1 ∧
      t < (List.replicate n c).length
    · have h2 : t < n := by
        have := hvalid.2.2
        simpa using this
      exact zscoreAt_nan_of_var_zero (hvar t (by omega) h2)
    · exact zscoreAt_nan_of_invalid hvalid
  refine ⟨hvar, hz, ?_⟩
  intro pa hpa
  unfold backtestTrace at hpa
  rw [runFrom_nan] at hpa
  · rcases List.mem_map.mp hpa with ⟨z, _, rfl⟩
    rfl
  · intro z hzz
    rcases List.mem_map.mp hzz with ⟨t, _, rfl⟩
    exact hz t

theorem constant_series_no_trade_witness :
    2 ≤ (Params.mk 2 2 (1 / 2)).lookback ∧
    (Params.mk 2 2 (1 / 2)).lookback ≤ 3 ∧
    ((∀ t, (Params.mk 2 2 (1 / 2)).lookback - 1 ≤ t → t < 3 →
        rollingVar (List.replicate 3 (7 : ℚ))
          (Params.mk 2 2 (1 / 2)).lookback t = some 0) ∧
      (∀ t, zscoreAt (List.replicate 3 (7 : ℚ))
          (Params.mk 2 2 (1 / 2)).lookback t = .nan) ∧
      ∀ pa ∈ backtestTrace (Params.mk 2 2 (1 / 2))
          (List.replicate 3 (7 : ℚ)), pa = (.flat, .hold)) :=
  ⟨by decide, by decide,
    constant_series_no_trade (Params.mk 2 2 (1 / 2)) 7 3 (by decide)
      (by decide)⟩

/-- C10: whenever the rolling std is defined and zero, every price in
the trailing window equals the rolling mean (the close at `t`
included), so the z-score numerator is zero: the division is the `0/0`
NaN form and never produces `+∞` or `−∞`. -/
theorem zero_std_zero_numerator (prices : List ℚ) (L t : ℕ)
    (h : rollingVar prices L t = some 0) :
    (∀ x ∈ windowAt prices L t, x = (windowAt prices L t).sum / (L : ℚ)) ∧
    prices.getD t 0 - (windowAt prices L t).sum / (L : ℚ) = 0 ∧
    zscoreAt prices L t ≠ .posinf ∧ zscoreAt prices L t ≠ .neginf := by
  refine ⟨window_const_of_var_zero h,
    sub_eq_zero.mpr (close_eq_mean_of_var_zero h), ?_, ?_⟩ <;>
      simp [zscoreAt_nan_of_var_zero h]

theorem zero_std_zero_numerator_witness :
    rollingVar (List.replicate 2 (5 : ℚ)) 2 1 = some 0 ∧
    ((∀ x ∈ windowAt (List.replicate 2 (5 : ℚ)) 2 1,
        x = (windowAt (List.replicate 2 (5 : ℚ)) 2 1).sum / ((2 : ℕ) : ℚ)) ∧
      (List.replicate 2 (5 : ℚ)).getD 1 0 -
        (windowAt (List.replicate 2 (5 : ℚ)) 2 1).sum / ((2 : ℕ) : ℚ) = 0 ∧
      zscoreAt (List.replicate 2 (5 : ℚ)) 2 1 ≠ .posinf ∧
      zscoreAt (List.replicate 2 (5 : ℚ)) 2 1 ≠ .neginf) :=
  ⟨rollingVar_replicate_zero (by norm_num) (by norm_num) (by norm_num),
    zero_std_zero_numerator (List.replicate 2 (5 : ℚ)) 2 1
      (rollingVar_replicate_zero (by norm_num) (by norm_num) (by norm_num))⟩

end Claims

end ZScoreMR
